import Mathlib

/-!
# gossm: the command history store (`pkg/gossm/history.go`)

A shallow embedding of the `History` type and its four operations
(`PutCommand`, `AppendPayload`, `Commands`, `CommandOutputs`) over an explicit
model of the two SQLite tables, followed by theorems about them.

Conventions of the embedding

* A table is the list of its rows, in the order the engine scans them.
* A nullable `text` column is an `Option`; `none` is SQL `NULL`.
* A Go `error` is an `Option String`; `none` is `nil`.
* Every `db.Exec` and `db.Query` takes the answer of the storage engine as an
  extra argument: the engine either runs the statement or rejects it, and a
  rejected statement changes nothing (a single SQL statement is atomic).
* `ssm.Command`, the element type of `Invocations` and `encoding/json` are
  declared outside `history.go`; they enter as the parameters `Cmd`, `Inv`
  and a `Json Cmd Inv` record.
-/

namespace gossm

/-! ## Data model -/

/-- A Go `error`: `none` is `nil`, `some msg` is a non-nil error. -/
abbrev GoError := Option String

/-- A non-nil Go `[]byte` holding JSON text. -/
abbrev Bytes := String

/-- One row of
`commands (commandId text primary key, commandJson text, invocations text, complete bool)`. -/
structure CommandRow where
  commandId : String
  commandJson : Option Bytes
  invocations : Option Bytes
  complete : Option Bool
deriving DecidableEq, Repr

/-- One row of
`invocations (commandId text, instanceId text, stdout text, stderr text, primary key (commandId, instanceId))`.
The only statement writing this table binds four Go strings, so the columns hold text. -/
structure InvocationRow where
  commandId : String
  instanceId : String
  stdout : String
  stderr : String
deriving DecidableEq, Repr

/-- The database behind `History.db`: the two tables. -/
structure DB where
  commands : List CommandRow
  invocations : List InvocationRow
deriving DecidableEq, Repr

/-- The Go struct `History`. -/
structure History where
  db : DB
deriving DecidableEq, Repr

/-- Modelled from the spec: the type `SsmMessage` is declared outside `history.go`;
`AppendPayload` reads `msg.Payload.InstanceId`, `msg.Payload.StdoutChunk` and
`msg.Payload.StderrChunk`, which the spec describes as text. -/
structure SsmPayload where
  InstanceId : String
  StdoutChunk : String
  StderrChunk : String
deriving DecidableEq, Repr

/-- Modelled from the spec: the type `SsmMessage` is declared outside `history.go`;
`AppendPayload` reads `msg.CommandId` and `msg.Payload`. -/
structure SsmMessage where
  CommandId : String
  Payload : SsmPayload
deriving DecidableEq, Repr

/-- The Go struct `HistoricalCommand`. -/
structure HistoricalCommand (Cmd Inv : Type) where
  Command : Cmd
  Invocations : List Inv

/-- The Go struct `HistoricalOutput`. -/
structure HistoricalOutput where
  InstanceId : String
  Stdout : String
  Stderr : String
deriving DecidableEq, Repr

/-- What `history.go` uses of `ssm.Command`, of the element type of `Invocations`
and of `encoding/json`: the two `CommandId` fields (dereferenced without a nil
check in the source, so they are present here), `json.Marshal` on either
document, which returns bytes or an error, and the decoding of non-empty input
into either document. -/
structure Json (Cmd Inv : Type) where
  CommandId : Cmd → String
  InvCommandId : Inv → String
  marshalCommand : Cmd → Except String Bytes
  marshalInvocations : List Inv → Except String Bytes
  decodeCommand : Bytes → Except String Cmd
  decodeInvocations : Bytes → Except String (List Inv)

/-- The answer of the engine to a `db.Query` and to the iteration over its rows:
all rows are delivered, or `db.Query` returns an error, or `rows.Next()` turns
false after `n` rows (`rows.Err()` is not consulted by the source). -/
inductive QueryOutcome where
  | served
  | rejected (err : String)
  | interrupted (n : Nat)
deriving DecidableEq, Repr

/-! ## The SQL statements -/

/-- The shape `insert ... on conflict (key) do update set ...` shared by the three
write statements: the row in conflict is rewritten in place, and without a
conflict the fresh row is added. -/
def upsert {α : Type} (conflict : α → Bool) (update : α → α) (fresh : α) : List α → List α
  | [] => [fresh]
  | r :: rs => if conflict r then update r :: rs else r :: upsert conflict update fresh rs

/-- The statement
`insert into commands (commandId, commandJson) values(?, ?) on conflict(commandId) do update set commandJson = excluded.commandJson`. -/
def upsertCommandJson (commandId : String) (bytes : Option Bytes) (db : DB) : DB :=
  let fresh : CommandRow :=
    { commandId := commandId, commandJson := bytes, invocations := none, complete := none }
  let rows := upsert (fun r => r.commandId == commandId)
    (fun r => { r with commandJson := bytes }) fresh db.commands
  { db with commands := rows }

/-- The statement
`insert into commands (commandId, invocations) values(?, ?) on conflict(commandId) do update set invocations = excluded.invocations`. -/
def upsertInvocations (commandId : String) (bytes : Option Bytes) (db : DB) : DB :=
  let fresh : CommandRow :=
    { commandId := commandId, commandJson := none, invocations := bytes, complete := none }
  let rows := upsert (fun r => r.commandId == commandId)
    (fun r => { r with invocations := bytes }) fresh db.commands
  { db with commands := rows }

/-- The statement
`insert into invocations (commandId, instanceId, stdout, stderr) values (?, ?, ?, ?) on conflict (commandId, instanceId) do update set stdout = stdout || excluded.stdout, stderr = stderr || excluded.stderr`. -/
def appendOutput (commandId instanceId stdoutChunk stderrChunk : String) (db : DB) : DB :=
  let fresh : InvocationRow :=
    { commandId := commandId, instanceId := instanceId, stdout := stdoutChunk,
      stderr := stderrChunk }
  let rows := upsert (fun r => r.commandId == commandId && r.instanceId == instanceId)
    (fun r => { r with stdout := r.stdout ++ stdoutChunk, stderr := r.stderr ++ stderrChunk })
    fresh db.invocations
  { db with invocations := rows }

/-- The call `h.db.Exec(stmt, ...)`: the engine runs the statement, or rejects it and
changes nothing. -/
def History.Exec (h : History) (answer : GoError) (stmt : DB → DB) : History × GoError :=
  match answer with
  | none => ({ h with db := stmt h.db }, none)
  | some err => (h, some err)

/-- The rows a query delivers to the loop `for rows.Next()`. -/
def delivered {α : Type} (rows : List α) : QueryOutcome → Except String (List α)
  | .served => .ok rows
  | .rejected err => .error err
  | .interrupted n => .ok (rows.take n)

/-! ## The operations of `history.go` -/

/-- The function `NewHistory`: the two `create table if not exists` statements keep what a
store already holds and give a new store two empty tables; `disk` is what is
stored at `path`, and the three answers belong to `sql.Open` and the two
statements. -/
def NewHistory (disk : Option DB) (a0 a1 a2 : GoError) : Except String History :=
  match a0 with
  | some err => .error err
  | none =>
    match a1 with
    | some err => .error err
    | none =>
      match a2 with
      | some err => .error err
      | none => .ok { db := disk.getD { commands := [], invocations := [] } }

/-- The loop `for _, inv := range invocations { commandId = *inv.CommandId }` after
`commandId := ""`. -/
def lastCommandId {Cmd Inv : Type} (json : Json Cmd Inv) (invocations : List Inv) : String :=
  invocations.foldl (fun _ inv => json.InvCommandId inv) ""

/-- The block `if command != nil { ... }` of `PutCommand`; the error is what the block
returns from the function, `none` when control falls through. -/
def putCommandJson {Cmd Inv : Type} (json : Json Cmd Inv) (h : History) (command : Option Cmd)
    (a1 : GoError) : History × GoError :=
  match command with
  | none => (h, none)
  | some c =>
    match json.marshalCommand c with
    | .error err => (h, some err)
    | .ok bytes => h.Exec a1 (upsertCommandJson (json.CommandId c) (some bytes))

/-- The block `if len(invocations) > 0 { ... }` of `PutCommand`. The error of
`json.Marshal` is discarded (`bytes, _ := ...`); on an error `bytes` is the nil
slice, which the driver binds as `NULL`. -/
def putInvocations {Cmd Inv : Type} (json : Json Cmd Inv) (h : History) (invocations : List Inv)
    (a2 : GoError) : History × GoError :=
  if invocations.length > 0 then
    let commandId := lastCommandId json invocations
    let bytes : Option Bytes := (json.marshalInvocations invocations).toOption
    h.Exec a2 (upsertInvocations commandId bytes)
  else (h, none)

/-- The method `History.PutCommand`; `a1` and `a2` are the answers of the engine to the
first and to the second `Exec`. -/
def PutCommand {Cmd Inv : Type} (json : Json Cmd Inv) (h : History) (command : Option Cmd)
    (invocations : List Inv) (a1 a2 : GoError) : History × GoError :=
  match putCommandJson json h command a1 with
  | (h1, some err) => (h1, some err)
  | (h1, none) => putInvocations json h1 invocations a2

/-- The method `History.AppendPayload`. -/
def AppendPayload (h : History) (msg : SsmMessage) (answer : GoError) : History × GoError :=
  h.Exec answer (appendOutput msg.CommandId msg.Payload.InstanceId msg.Payload.StdoutChunk
    msg.Payload.StderrChunk)

/-- The result of `rows.Scan` into a `[]byte`: `NULL` gives the nil slice, of length 0. -/
def scanBytes : Option Bytes → Bytes
  | none => ""
  | some b => b

/-- The call `json.Unmarshal(data, &v)`: input of length 0 gives the error
"unexpected end of JSON input"; other input is decoded. -/
def jsonUnmarshal {α : Type} (decode : Bytes → Except String α) (data : Bytes) : Except String α :=
  if data = "" then .error "unexpected end of JSON input" else decode data

/-- The body of the loop of `Commands` over the delivered rows. -/
def commandsLoop {Cmd Inv : Type} (json : Json Cmd Inv) :
    List CommandRow → List (HistoricalCommand Cmd Inv) →
      Except String (List (HistoricalCommand Cmd Inv))
  | [], commands => .ok commands
  | row :: rest, commands =>
    match jsonUnmarshal json.decodeCommand (scanBytes row.commandJson) with
    | .error err => .error err
    | .ok command =>
      match jsonUnmarshal json.decodeInvocations (scanBytes row.invocations) with
      | .error err => .error err
      | .ok invocations =>
        commandsLoop json rest (commands ++ [{ Command := command, Invocations := invocations }])

/-- The method `History.Commands`: `select commandJson, invocations from commands`. -/
def Commands {Cmd Inv : Type} (json : Json Cmd Inv) (h : History) (q : QueryOutcome) :
    Except String (List (HistoricalCommand Cmd Inv)) :=
  match delivered h.db.commands q with
  | .error err => .error err
  | .ok rows => commandsLoop json rows []

/-- The body of the loop of `CommandOutputs`: scanning three text columns into three
strings does not fail. -/
def outputsLoop : List InvocationRow → List HistoricalOutput → List HistoricalOutput
  | [], outputs => outputs
  | row :: rest, outputs =>
    outputsLoop rest
      (outputs ++ [{ InstanceId := row.instanceId, Stdout := row.stdout, Stderr := row.stderr }])

/-- The method `History.CommandOutputs`:
`select instanceId, stdout, stderr from invocations where commandId = ?`. -/
def CommandOutputs (h : History) (commandId : String) (q : QueryOutcome) :
    Except String (List HistoricalOutput) :=
  match delivered (h.db.invocations.filter (fun r => r.commandId == commandId)) q with
  | .error err => .error err
  | .ok rows => .ok (outputsLoop rows [])

/-! ## Observations on a store, and sequences of calls -/

/-- The row of `commands` with the given id that the engine finds first. -/
def lookupCommand (h : History) (commandId : String) : Option CommandRow :=
  h.db.commands.find? (fun r => r.commandId == commandId)

/-- The stored `(stdout, stderr)` of the key `(commandId, instanceId)`, if it has a row. -/
def lookupOutput (h : History) (commandId instanceId : String) : Option (String × String) :=
  (h.db.invocations.find? (fun r => r.commandId == commandId && r.instanceId == instanceId)).map
    (fun r => (r.stdout, r.stderr))

/-- The primary keys of the two tables: no two rows of `commands` share a `commandId`,
no two rows of `invocations` share `(commandId, instanceId)`. -/
def PrimaryKeys (db : DB) : Prop :=
  (db.commands.map (fun r => r.commandId)).Nodup ∧
    (db.invocations.map (fun r => (r.commandId, r.instanceId))).Nodup

instance decidablePrimaryKeys (db : DB) : Decidable (PrimaryKeys db) := by
  unfold PrimaryKeys
  infer_instance

/-- The command ids that have a row in `commands`, row by row. -/
def commandIds (h : History) : List String :=
  h.db.commands.map (fun r => r.commandId)

/-- The store of a new path: `NewHistory` on a location that holds nothing. -/
def emptyStore : History :=
  { db := { commands := [], invocations := [] } }

/-- A run of `AppendPayload` calls, in order, each accepted by the engine. -/
def appendAll (h : History) (msgs : List SsmMessage) : History :=
  msgs.foldl (fun h msg => (AppendPayload h msg none).1) h

/-- The message of the call `AppendOutput(c, i, a, b)`. -/
def chunkMessage (c i : String) (chunk : String × String) : SsmMessage :=
  { CommandId := c, Payload := { InstanceId := i, StdoutChunk := chunk.1, StderrChunk := chunk.2 } }

/-- The calls of a run that belong to the key `(c, i)`, in their own order. -/
def ownCalls (c i : String) (msgs : List SsmMessage) : List SsmMessage :=
  msgs.filter (fun m => m.CommandId == c && m.Payload.InstanceId == i)

/-- One write call on a store, with the answers of the engine to its statements. -/
inductive Call (Cmd Inv : Type) where
  | put (command : Option Cmd) (invocations : List Inv) (a1 a2 : GoError)
  | append (msg : SsmMessage) (answer : GoError)

/-- The store after one write call. -/
def Call.after {Cmd Inv : Type} (json : Json Cmd Inv) (h : History) : Call Cmd Inv → History
  | .put command invocations a1 a2 => (PutCommand json h command invocations a1 a2).1
  | .append msg answer => (AppendPayload h msg answer).1

/-- The store after a sequence of write calls. -/
def run {Cmd Inv : Type} (json : Json Cmd Inv) (h : History) (calls : List (Call Cmd Inv)) :
    History :=
  calls.foldl (Call.after json) h

/-- The stored pair of one key after the calls `own` on that key, from the pair `cur`
it had before (`none`: no row). -/
def accumulate (cur : Option (String × String)) (own : List SsmMessage) :
    Option (String × String) :=
  own.foldl (fun cur m =>
    match cur with
    | none => some (m.Payload.StdoutChunk, m.Payload.StderrChunk)
    | some (so, se) => some (so ++ m.Payload.StdoutChunk, se ++ m.Payload.StderrChunk)) cur

/-! ## A small instance of the JSON parameter, for worked examples -/

/-- A cut-down `ssm.Command`: `timeInRange` tells whether `RequestedDateTime` has a year
within 0..9999, outside of which `time.Time` cannot be marshalled. -/
structure ExampleCommand where
  CommandId : String
  Comment : String
  timeInRange : Bool
deriving DecidableEq, Repr

/-- A cut-down `ssm.CommandInvocation`. -/
structure ExampleInvocation where
  CommandId : String
  InstanceId : String
  timeInRange : Bool
deriving DecidableEq, Repr

/-- Splits a text at its first `;`. -/
def splitField : List Char → List Char × List Char
  | [] => ([], [])
  | ch :: rest =>
    if ch = ';' then ([], rest)
    else ((ch :: (splitField rest).1), (splitField rest).2)

/-- The text of one example invocation. -/
def encodeInvocation (inv : ExampleInvocation) : String :=
  inv.CommandId ++ ";" ++ inv.InstanceId ++ ";"

/-- Reads back example invocations, two fields at a time; the fuel bounds the number of
entries by the length of the text. -/
def decodeInvocationList : Nat → List Char → List ExampleInvocation
  | 0, _ => []
  | _, [] => []
  | fuel + 1, text =>
    let f1 := splitField text
    let f2 := splitField f1.2
    { CommandId := String.mk f1.1, InstanceId := String.mk f2.1, timeInRange := true } ::
      decodeInvocationList fuel f2.2

/-- An instance of the JSON parameter over the example documents: a document with a
time out of range is not marshalled, as with `time.Time`; every encoding starts
with a tag character, so it is never empty. -/
def exampleJson : Json ExampleCommand ExampleInvocation where
  CommandId := fun c => c.CommandId
  InvCommandId := fun inv => inv.CommandId
  marshalCommand := fun c =>
    if c.timeInRange then .ok ("C" ++ c.CommandId ++ ";" ++ c.Comment)
    else .error "Time.MarshalJSON: year outside of range [0,9999]"
  marshalInvocations := fun l =>
    if l.all (fun inv => inv.timeInRange) then .ok ("L" ++ String.join (l.map encodeInvocation))
    else .error "Time.MarshalJSON: year outside of range [0,9999]"
  decodeCommand := fun b =>
    match b.data with
    | 'C' :: rest =>
      .ok { CommandId := String.mk (splitField rest).1, Comment := String.mk (splitField rest).2,
            timeInRange := true }
    | _ => .error "invalid character"
  decodeInvocations := fun b =>
    match b.data with
    | 'L' :: rest => .ok (decodeInvocationList rest.length rest)
    | _ => .error "invalid character"

/-! ## Lemmas on `upsert` -/

theorem find?_upsert_conflict {α : Type} (p : α → Bool) (u : α → α) (f : α)
    (hu : ∀ r, p r = true → p (u r) = true) (hf : p f = true) (rows : List α) :
    (upsert p u f rows).find? p = some ((rows.find? p).elim f u) := by
  induction rows with
  | nil => simp [upsert, hf]
  | cons r rs ih =>
    by_cases h : p r = true
    · simp [upsert, h, hu r h]
    · simp [upsert, h, ih]

theorem find?_upsert_other {α : Type} (p q : α → Bool) (u : α → α) (f : α)
    (hq : ∀ r, p r = true → q r = false ∧ q (u r) = false) (hf : q f = false)
    (rows : List α) :
    (upsert p u f rows).find? q = rows.find? q := by
  induction rows with
  | nil => simp [upsert, hf]
  | cons r rs ih =>
    by_cases h : p r = true
    · simp [upsert, h, (hq r h).1, (hq r h).2]
    · by_cases h2 : q r = true
      · simp [upsert, h, h2]
      · simp [upsert, h, h2, ih]

theorem filter_upsert_other {α : Type} (p q : α → Bool) (u : α → α) (f : α)
    (hq : ∀ r, p r = true → q r = false ∧ q (u r) = false) (hf : q f = false)
    (rows : List α) :
    (upsert p u f rows).filter q = rows.filter q := by
  induction rows with
  | nil => simp [upsert, hf]
  | cons r rs ih =>
    by_cases h : p r = true
    · simp [upsert, h, (hq r h).1, (hq r h).2]
    · by_cases h2 : q r = true
      · simp [upsert, h, h2, ih]
      · simp [upsert, h, h2, ih]

theorem map_upsert_of_mem {α κ : Type} (key : α → κ) (k : κ) (p : α → Bool) (u : α → α) (f : α)
    (hp : ∀ r, p r = true ↔ key r = k) (hu : ∀ r, key (u r) = key r)
    (rows : List α) (hk : k ∈ rows.map key) :
    (upsert p u f rows).map key = rows.map key := by
  induction rows with
  | nil => simp at hk
  | cons r rs ih =>
    by_cases h : p r = true
    · simp [upsert, h, hu]
    · have hne : ¬ key r = k := fun e => h ((hp r).2 e)
      have hk2 : k ∈ rs.map key := by
        simp only [List.map_cons, List.mem_cons] at hk
        rcases hk with hk | hk
        · exact absurd hk.symm hne
        · exact hk
      simp [upsert, h, ih hk2]

theorem map_upsert_of_not_mem {α κ : Type} (key : α → κ) (k : κ) (p : α → Bool) (u : α → α)
    (f : α) (hp : ∀ r, p r = true ↔ key r = k) (hf : key f = k)
    (rows : List α) (hk : k ∉ rows.map key) :
    (upsert p u f rows).map key = rows.map key ++ [k] := by
  induction rows with
  | nil => simp [upsert, hf]
  | cons r rs ih =>
    simp only [List.map_cons, List.mem_cons, not_or] at hk
    have h : ¬ p r = true := fun e => hk.1 ((hp r).1 e).symm
    simp [upsert, h, ih hk.2]

theorem nodup_upsert {α κ : Type} (key : α → κ) (k : κ) (p : α → Bool) (u : α → α) (f : α)
    (hp : ∀ r, p r = true ↔ key r = k) (hu : ∀ r, key (u r) = key r) (hf : key f = k)
    (rows : List α) (hnd : (rows.map key).Nodup) :
    ((upsert p u f rows).map key).Nodup := by
  by_cases hk : k ∈ rows.map key
  · rw [map_upsert_of_mem key k p u f hp hu rows hk]
    exact hnd
  · rw [map_upsert_of_not_mem key k p u f hp hf rows hk]
    refine List.Nodup.append hnd (List.nodup_singleton k) ?_
    intro x hx hx2
    simp only [List.mem_singleton] at hx2
    exact hk (hx2 ▸ hx)

theorem mem_map_upsert {α κ : Type} (key : α → κ) (k : κ) (p : α → Bool) (u : α → α) (f : α)
    (hp : ∀ r, p r = true ↔ key r = k) (hu : ∀ r, key (u r) = key r) (hf : key f = k)
    (rows : List α) (x : κ) :
    x ∈ (upsert p u f rows).map key ↔ x = k ∨ x ∈ rows.map key := by
  by_cases hk : k ∈ rows.map key
  · rw [map_upsert_of_mem key k p u f hp hu rows hk]
    constructor
    · exact fun h => Or.inr h
    · rintro (h | h)
      · exact h ▸ hk
      · exact h
  · rw [map_upsert_of_not_mem key k p u f hp hf rows hk]
    simp [or_comm]

theorem filter_upsert_conflict {α κ : Type} (key : α → κ) (k : κ) (p : α → Bool) (u : α → α)
    (f : α) (hp : ∀ r, p r = true ↔ key r = k) (hu : ∀ r, key (u r) = key r) (hf : key f = k)
    (rows : List α) (hnd : (rows.map key).Nodup) :
    (upsert p u f rows).filter p = [(rows.find? p).elim f u] := by
  induction rows with
  | nil => simp [upsert, (hp f).2 hf]
  | cons r rs ih =>
    simp only [List.map_cons, List.nodup_cons] at hnd
    by_cases h : p r = true
    · have hpu : p (u r) = true := (hp _).2 ((hu r).trans ((hp r).1 h))
      have hrest : rs.filter p = [] := by
        rw [List.filter_eq_nil_iff]
        intro x hx hpx
        apply hnd.1
        rw [(hp r).1 h, ← (hp x).1 hpx]
        exact List.mem_map_of_mem key hx
      simp [upsert, h, hpu, hrest]
    · simp [upsert, h, ih hnd.2]

/-! ## Lemmas on the outputs table -/

theorem newHistory_fresh : NewHistory none none none none = .ok emptyStore := by
  rfl

theorem foldl_append_init (l : List String) (s : String) :
    l.foldl (fun r x => r ++ x) s = s ++ l.foldl (fun r x => r ++ x) "" := by
  induction l generalizing s with
  | nil => simp
  | cons a l ih =>
    simp only [List.foldl_cons]
    rw [ih (s ++ a), ih ("" ++ a), String.empty_append, String.append_assoc]

theorem join_cons (a : String) (l : List String) :
    String.join (a :: l) = a ++ String.join l := by
  unfold String.join
  simp only [List.foldl_cons]
  rw [foldl_append_init l ("" ++ a), String.empty_append]

theorem outputKey_iff (c i : String) (r : InvocationRow) :
    (r.commandId == c && r.instanceId == i) = true ↔ (r.commandId, r.instanceId) = (c, i) := by
  simp

theorem lookupOutput_append_same (h : History) (c i a b : String) :
    lookupOutput (AppendPayload h (chunkMessage c i (a, b)) none).1 c i =
      some (match lookupOutput h c i with
        | none => (a, b)
        | some (so, se) => (so ++ a, se ++ b)) := by
  simp only [lookupOutput, AppendPayload, History.Exec, appendOutput, chunkMessage]
  rw [find?_upsert_conflict _ _ _ (fun r hr => by simpa using hr) (by simp)]
  cases h.db.invocations.find? (fun r => r.commandId == c && r.instanceId == i) <;> rfl

theorem lookupOutput_append_other (h : History) (msg : SsmMessage) (answer : GoError)
    (c i : String) (hne : (msg.CommandId, msg.Payload.InstanceId) ≠ (c, i)) :
    lookupOutput (AppendPayload h msg answer).1 c i = lookupOutput h c i := by
  cases answer with
  | some err => rfl
  | none =>
    simp only [lookupOutput, AppendPayload, History.Exec, appendOutput]
    rw [find?_upsert_other]
    · intro r hr
      have hk := (outputKey_iff _ _ r).1 hr
      have hq : ¬ (r.commandId, r.instanceId) = (c, i) := fun e => hne (hk.symm.trans e)
      have hq2 : ¬ ((r.commandId == c && r.instanceId == i) = true) :=
        fun e => hq ((outputKey_iff c i r).1 e)
      exact ⟨by simpa using hq2, by simpa using hq2⟩
    · have hq2 : ¬ ((msg.CommandId == c && msg.Payload.InstanceId == i) = true) := by
        intro e
        apply hne
        simpa using e
      simpa using hq2

theorem message_eta (m : SsmMessage) :
    m = chunkMessage m.CommandId m.Payload.InstanceId
      (m.Payload.StdoutChunk, m.Payload.StderrChunk) := rfl

theorem lookupOutput_appendAll (msgs : List SsmMessage) (h : History) (c i : String) :
    lookupOutput (appendAll h msgs) c i = accumulate (lookupOutput h c i) (ownCalls c i msgs) := by
  induction msgs generalizing h with
  | nil => rfl
  | cons m ms ih =>
    have hstep : appendAll h (m :: ms) = appendAll (AppendPayload h m none).1 ms := rfl
    rw [hstep, ih]
    by_cases hk : (m.CommandId, m.Payload.InstanceId) = (c, i)
    · have hc : m.CommandId = c := congrArg Prod.fst hk
      have hi : m.Payload.InstanceId = i := congrArg Prod.snd hk
      have hown : ownCalls c i (m :: ms) = m :: ownCalls c i ms := by
        simp [ownCalls, hc, hi]
      rw [hown]
      have hm := message_eta m
      rw [hc, hi] at hm
      rw [hm, lookupOutput_append_same]
      simp only [accumulate, List.foldl_cons, chunkMessage]
      cases lookupOutput h c i <;> rfl
    · have hown : ownCalls c i (m :: ms) = ownCalls c i ms := by
        have hq : ¬ ((m.CommandId == c && m.Payload.InstanceId == i) = true) := by
          intro e
          apply hk
          simpa using e
        simp only [ownCalls, List.filter_cons, hq, if_false]
        simp
      rw [hown, lookupOutput_append_other h m none c i hk]

theorem accumulate_some (own : List SsmMessage) (so se : String) :
    accumulate (some (so, se)) own =
      some (so ++ String.join (own.map (fun m => m.Payload.StdoutChunk)),
        se ++ String.join (own.map (fun m => m.Payload.StderrChunk))) := by
  induction own generalizing so se with
  | nil => simp [accumulate, String.join]
  | cons m ms ih =>
    have hstep : accumulate (some (so, se)) (m :: ms) =
        accumulate (some (so ++ m.Payload.StdoutChunk, se ++ m.Payload.StderrChunk)) ms := rfl
    rw [hstep, ih, List.map_cons, List.map_cons, join_cons, join_cons,
      String.append_assoc, String.append_assoc]

theorem accumulate_none (m : SsmMessage) (ms : List SsmMessage) :
    accumulate none (m :: ms) =
      some (String.join ((m :: ms).map (fun m => m.Payload.StdoutChunk)),
        String.join ((m :: ms).map (fun m => m.Payload.StderrChunk))) := by
  have hstep : accumulate none (m :: ms) =
      accumulate (some (m.Payload.StdoutChunk, m.Payload.StderrChunk)) ms := rfl
  rw [hstep, accumulate_some, List.map_cons, List.map_cons, join_cons, join_cons]

theorem ownCalls_chunks (c i : String) (chunks : List (String × String)) :
    ownCalls c i (chunks.map (chunkMessage c i)) = chunks.map (chunkMessage c i) := by
  simp only [ownCalls, List.filter_eq_self, List.mem_map]
  rintro m ⟨ch, -, rfl⟩
  simp [chunkMessage]

theorem outputsLoop_eq (rows : List InvocationRow) (acc : List HistoricalOutput) :
    outputsLoop rows acc = acc ++ rows.map (fun row =>
      { InstanceId := row.instanceId, Stdout := row.stdout, Stderr := row.stderr }) := by
  induction rows generalizing acc with
  | nil => simp [outputsLoop]
  | cons r rs ih => simp [outputsLoop, ih]

theorem commandOutputs_served (h : History) (c : String) :
    CommandOutputs h c .served = .ok ((h.db.invocations.filter (fun r => r.commandId == c)).map
      (fun row => { InstanceId := row.instanceId, Stdout := row.stdout, Stderr := row.stderr })) := by
  simp [CommandOutputs, delivered, outputsLoop_eq]

theorem mem_outputs_of_lookup (h : History) (c i so se : String)
    (hl : lookupOutput h c i = some (so, se)) :
    ({ InstanceId := i, Stdout := so, Stderr := se } : HistoricalOutput) ∈
      (h.db.invocations.filter (fun r => r.commandId == c)).map
        (fun row => { InstanceId := row.instanceId, Stdout := row.stdout, Stderr := row.stderr }) := by
  simp only [lookupOutput, Option.map_eq_some'] at hl
  obtain ⟨r, hr, hrv⟩ := hl
  have hmem := List.mem_of_find?_eq_some hr
  have hp : (r.commandId == c && r.instanceId == i) = true :=
    @List.find?_some _ (fun r : InvocationRow => r.commandId == c && r.instanceId == i) _ _ hr
  have hkey := (outputKey_iff c i r).1 hp
  simp only [Prod.mk.injEq] at hkey hrv
  refine List.mem_map.2 ⟨r, List.mem_filter.2 ⟨hmem, by simp [hkey.1]⟩, ?_⟩
  simp [hkey.2, hrv.1, hrv.2]

theorem find?_eq_some_iff_of_nodup {α κ : Type} (key : α → κ) (k : κ) (p : α → Bool)
    (hp : ∀ r, p r = true ↔ key r = k) (rows : List α) (hnd : (rows.map key).Nodup) (r : α) :
    rows.find? p = some r ↔ r ∈ rows ∧ key r = k := by
  induction rows with
  | nil => simp
  | cons x xs ih =>
    simp only [List.map_cons, List.nodup_cons] at hnd
    by_cases h : p x = true
    · have hx : key x = k := (hp x).1 h
      simp only [List.find?_cons_of_pos _ h, Option.some.injEq, List.mem_cons]
      constructor
      · rintro rfl
        exact ⟨Or.inl rfl, hx⟩
      · rintro ⟨hr | hr, hk⟩
        · exact hr.symm
        · exfalso
          apply hnd.1
          rw [hx, ← hk]
          exact List.mem_map_of_mem key hr
    · have hx : ¬ key x = k := fun e => h ((hp x).2 e)
      simp only [List.find?_cons_of_neg _ h, List.mem_cons]
      rw [ih hnd.2]
      constructor
      · rintro ⟨hr, hk⟩
        exact ⟨Or.inr hr, hk⟩
      · rintro ⟨hr | hr, hk⟩
        · exact absurd (hr ▸ hk) hx
        · exact ⟨hr, hk⟩

theorem lookup_of_mem_outputs (h : History) (c i so se : String)
    (hnd : (h.db.invocations.map (fun r => (r.commandId, r.instanceId))).Nodup)
    (hmem : ({ InstanceId := i, Stdout := so, Stderr := se } : HistoricalOutput) ∈
      (h.db.invocations.filter (fun r => r.commandId == c)).map
        (fun row => { InstanceId := row.instanceId, Stdout := row.stdout, Stderr := row.stderr })) :
    lookupOutput h c i = some (so, se) := by
  obtain ⟨r, hr, hout⟩ := List.mem_map.1 hmem
  obtain ⟨hrows, hc⟩ := List.mem_filter.1 hr
  simp only [HistoricalOutput.mk.injEq] at hout
  have hc2 : r.commandId = c := by simpa using hc
  have hfind := (find?_eq_some_iff_of_nodup (fun r : InvocationRow => (r.commandId, r.instanceId))
    (c, i) (fun r => r.commandId == c && r.instanceId == i) (outputKey_iff c i)
    h.db.invocations hnd r).2 ⟨hrows, by simp [hc2, hout.1]⟩
  simp [lookupOutput, hfind, hout.2.1, hout.2.2]

theorem nodup_instanceIds (rows : List InvocationRow) (c : String)
    (hnd : (rows.map (fun r => (r.commandId, r.instanceId))).Nodup) :
    ((rows.filter (fun r => r.commandId == c)).map (fun r => r.instanceId)).Nodup := by
  have hsub : ((rows.filter (fun r => r.commandId == c)).map
      (fun r => (r.commandId, r.instanceId))).Nodup :=
    List.Nodup.sublist (List.Sublist.map _ (List.filter_sublist rows)) hnd
  have heq : (rows.filter (fun r => r.commandId == c)).map (fun r => (r.commandId, r.instanceId)) =
      ((rows.filter (fun r => r.commandId == c)).map (fun r => r.instanceId)).map (Prod.mk c) := by
    rw [List.map_map]
    apply List.map_congr_left
    intro r hr
    have hc : r.commandId = c := by simpa using (List.mem_filter.1 hr).2
    simp [hc]
  rw [heq] at hsub
  exact List.Nodup.of_map _ hsub

/-! ## Theorems on the outputs table -/

/-- C1 (append accumulation): from a store with no row for `(c, i)`, after the accepted
calls `AppendOutput(c, i, a_k, b_k)` for k = 1..n with n at least 1, the stored
stdout of `(c, i)` is `a_1 ++ ... ++ a_n` and the stored stderr is
`b_1 ++ ... ++ b_n`, and `CommandOutputs c` lists that entry; the first call
returns no error and stores exactly its two chunks; a later call appends its
chunks to each field, so an empty chunk leaves its field as it was. -/
theorem append_accumulation (h : History) (c i : String) (chunks : List (String × String))
    (hnew : lookupOutput h c i = none) (hne : chunks ≠ []) :
    lookupOutput (appendAll h (chunks.map (chunkMessage c i))) c i =
        some (String.join (chunks.map Prod.fst), String.join (chunks.map Prod.snd)) ∧
      (∃ outs, CommandOutputs (appendAll h (chunks.map (chunkMessage c i))) c .served = .ok outs ∧
        { InstanceId := i, Stdout := String.join (chunks.map Prod.fst),
          Stderr := String.join (chunks.map Prod.snd) } ∈ outs) ∧
      (∀ a b : String, (AppendPayload h (chunkMessage c i (a, b)) none).2 = none ∧
        lookupOutput (AppendPayload h (chunkMessage c i (a, b)) none).1 c i = some (a, b)) ∧
      (∀ (h1 : History) (so se a b : String), lookupOutput h1 c i = some (so, se) →
        lookupOutput (AppendPayload h1 (chunkMessage c i (a, b)) none).1 c i =
            some (so ++ a, se ++ b) ∧
          lookupOutput (AppendPayload h1 (chunkMessage c i ("", b)) none).1 c i =
            some (so, se ++ b) ∧
          lookupOutput (AppendPayload h1 (chunkMessage c i (a, "")) none).1 c i =
            some (so ++ a, se)) := by
  have hmain : lookupOutput (appendAll h (chunks.map (chunkMessage c i))) c i =
      some (String.join (chunks.map Prod.fst), String.join (chunks.map Prod.snd)) := by
    rw [lookupOutput_appendAll, ownCalls_chunks, hnew]
    cases chunks with
    | nil => exact absurd rfl hne
    | cons ch rest =>
      rw [List.map_cons, accumulate_none, ← List.map_cons, List.map_map, List.map_map]
      rfl
  refine ⟨hmain, ⟨_, commandOutputs_served _ c, mem_outputs_of_lookup _ c i _ _ hmain⟩, ?_, ?_⟩
  · intro a b
    refine ⟨rfl, ?_⟩
    rw [lookupOutput_append_same, hnew]
  · intro h1 so se a b hrow
    refine ⟨?_, ?_, ?_⟩
    · rw [lookupOutput_append_same, hrow]
    · rw [lookupOutput_append_same, hrow]
      simp
    · rw [lookupOutput_append_same, hrow]
      simp

/-- The scenario of C1: `AppendOutput("cmd-1", "i-1", "hello ", "")` and then
`AppendOutput("cmd-1", "i-1", "world", "err1")` on the empty store; `GetOutputs("cmd-1")`
returns the one entry `("i-1", "hello world", "err1")`. -/
theorem append_accumulation_witness :
    lookupOutput (appendAll emptyStore
        ([("hello ", ""), ("world", "err1")].map (chunkMessage "cmd-1" "i-1"))) "cmd-1" "i-1" =
        some ("hello world", "err1") ∧
      CommandOutputs (appendAll emptyStore
        ([("hello ", ""), ("world", "err1")].map (chunkMessage "cmd-1" "i-1"))) "cmd-1" .served =
        .ok [{ InstanceId := "i-1", Stdout := "hello world", Stderr := "err1" }] :=
  ⟨(append_accumulation emptyStore "cmd-1" "i-1" [("hello ", ""), ("world", "err1")]
      (by decide) (by decide)).1, by rfl⟩

/-- C7 (isolation on distinct keys): an `AppendPayload` call on another key, accepted or
rejected, leaves the stored stdout and stderr of `(c, i)` as they were; hence
after any run `msgs` of accepted calls, on any keys in any interleaving, the
stored pair of `(c, i)` is the one its own calls alone produce: the
concatenation of its own chunks in its own call order, after what the row held
before, if it had one. -/
theorem append_isolation (h : History) (msgs : List SsmMessage) (c i : String) :
    (∀ (h1 : History) (msg : SsmMessage) (answer : GoError),
        (msg.CommandId, msg.Payload.InstanceId) ≠ (c, i) →
        lookupOutput (AppendPayload h1 msg answer).1 c i = lookupOutput h1 c i) ∧
      lookupOutput (appendAll h msgs) c i =
        lookupOutput (appendAll h (ownCalls c i msgs)) c i ∧
      (lookupOutput h c i = none → ownCalls c i msgs ≠ [] →
        lookupOutput (appendAll h msgs) c i =
          some (String.join ((ownCalls c i msgs).map (fun m => m.Payload.StdoutChunk)),
            String.join ((ownCalls c i msgs).map (fun m => m.Payload.StderrChunk)))) ∧
      (∀ so se : String, lookupOutput h c i = some (so, se) →
        lookupOutput (appendAll h msgs) c i =
          some (so ++ String.join ((ownCalls c i msgs).map (fun m => m.Payload.StdoutChunk)),
            se ++ String.join ((ownCalls c i msgs).map (fun m => m.Payload.StderrChunk)))) := by
  refine ⟨fun h1 msg answer hne => lookupOutput_append_other h1 msg answer c i hne, ?_, ?_, ?_⟩
  · rw [lookupOutput_appendAll, lookupOutput_appendAll]
    simp [ownCalls]
  · intro hnew hown
    rw [lookupOutput_appendAll, hnew]
    cases hm : ownCalls c i msgs with
    | nil => exact absurd hm hown
    | cons m ms => exact accumulate_none m ms
  · intro so se hrow
    rw [lookupOutput_appendAll, hrow, accumulate_some]

/-- C7 on two interleaved runs: the chunks "a1", "a2" for `("cmd-1", "i-1")` and "b1", "b2"
for `("cmd-1", "i-2")`, interleaved as a1, b1, b2, a2. -/
theorem append_isolation_witness :
    lookupOutput (appendAll emptyStore
        [chunkMessage "cmd-1" "i-1" ("a1", ""), chunkMessage "cmd-1" "i-2" ("b1", "x"),
          chunkMessage "cmd-1" "i-2" ("b2", "y"), chunkMessage "cmd-1" "i-1" ("a2", "z")])
        "cmd-1" "i-1" = some ("a1a2", "z") :=
  ((append_isolation emptyStore
      [chunkMessage "cmd-1" "i-1" ("a1", ""), chunkMessage "cmd-1" "i-2" ("b1", "x"),
        chunkMessage "cmd-1" "i-2" ("b2", "y"), chunkMessage "cmd-1" "i-1" ("a2", "z")]
      "cmd-1" "i-1").2.2.1 (by decide) (by decide)).trans (by decide)

/-- C8 (reading outputs): when the engine serves the query, `CommandOutputs c` returns
a list and no error; under the primary keys an entry `(i, so, se)` is in the
list exactly when the key `(c, i)` is stored with the accumulated stdout `so`
and stderr `se`, no two entries share an instance id, there is one entry per
row of `c`, and the list is empty when no row has the command id `c`. -/
theorem commandOutputs_complete (h : History) (c : String) (hpk : PrimaryKeys h.db) :
    ∃ outs, CommandOutputs h c .served = .ok outs ∧
      (∀ i so se : String, ({ InstanceId := i, Stdout := so, Stderr := se } : HistoricalOutput) ∈
        outs ↔ lookupOutput h c i = some (so, se)) ∧
      (outs.map (fun o => o.InstanceId)).Nodup ∧
      outs.length = (h.db.invocations.filter (fun r => r.commandId == c)).length ∧
      ((∀ r ∈ h.db.invocations, r.commandId ≠ c) → outs = []) := by
  refine ⟨_, commandOutputs_served h c, ?_, ?_, ?_, ?_⟩
  · intro i so se
    exact ⟨lookup_of_mem_outputs h c i so se hpk.2, mem_outputs_of_lookup h c i so se⟩
  · rw [List.map_map]
    exact nodup_instanceIds h.db.invocations c hpk.2
  · simp
  · intro hnone
    have hfil : h.db.invocations.filter (fun r => r.commandId == c) = [] := by
      rw [List.filter_eq_nil_iff]
      intro r hr
      simpa using hnone r hr
    rw [hfil]
    rfl

/-- C8 on a store with two commands: only the two entries of "cmd-1" are returned, and a
command without output gives the empty list. -/
theorem commandOutputs_complete_witness :
    (∃ outs, CommandOutputs (appendAll emptyStore
        [chunkMessage "cmd-1" "i-1" ("a", ""), chunkMessage "cmd-2" "i-1" ("b", ""),
          chunkMessage "cmd-1" "i-2" ("c", "e")]) "cmd-1" .served = .ok outs ∧
      outs.length = 2) ∧
    CommandOutputs emptyStore "cmd-9" .served = .ok [] := by
  refine ⟨?_, by rfl⟩
  obtain ⟨outs, hout, -, -, hlen, -⟩ := commandOutputs_complete (appendAll emptyStore
    [chunkMessage "cmd-1" "i-1" ("a", ""), chunkMessage "cmd-2" "i-1" ("b", ""),
      chunkMessage "cmd-1" "i-2" ("c", "e")]) "cmd-1" (by decide)
  exact ⟨outs, hout, hlen.trans (by decide)⟩

/-- C9 (nothing to put): `PutCommand` with no metadata and an absent or empty invocation list
returns no error and leaves the store as it was, whatever the engine would answer. -/
theorem putCommand_nothing {Cmd Inv : Type} (json : Json Cmd Inv) (h : History)
    (a1 a2 : GoError) :
    PutCommand json h (none : Option Cmd) ([] : List Inv) a1 a2 = (h, none) := by
  rfl

/-! ## Lemmas on the commands table -/

theorem commandKey_iff (c : String) (r : CommandRow) :
    (r.commandId == c) = true ↔ r.commandId = c := by
  simp

theorem lastCommandId_of_getLast? {Cmd Inv : Type} (json : Json Cmd Inv) (L : List Inv)
    (last : Inv) (hlast : L.getLast? = some last) :
    lastCommandId json L = json.InvCommandId last := by
  obtain ⟨ys, rfl⟩ := List.getLast?_eq_some_iff.1 hlast
  simp [lastCommandId, List.foldl_append]

theorem putCommand_metadata_only {Cmd Inv : Type} (json : Json Cmd Inv) (h : History) (M : Cmd)
    (bm : Bytes) (a2 : GoError) (hm : json.marshalCommand M = .ok bm) :
    PutCommand json h (some M) [] none a2 =
      ({ db := upsertCommandJson (json.CommandId M) (some bm) h.db }, none) := by
  simp [PutCommand, putCommandJson, putInvocations, History.Exec, hm]

theorem putCommand_invocations_only {Cmd Inv : Type} (json : Json Cmd Inv) (h : History)
    (L : List Inv) (a1 : GoError) (hne : L ≠ []) :
    PutCommand json h none L a1 none =
      ({ db := upsertInvocations (lastCommandId json L) (json.marshalInvocations L).toOption h.db },
        none) := by
  have hlen : L.length > 0 := List.length_pos.2 hne
  simp [PutCommand, putCommandJson, putInvocations, History.Exec, hlen]

theorem rows_upsertCommandJson (db : DB) (c : String) (b : Option Bytes)
    (hnd : (db.commands.map (fun r => r.commandId)).Nodup) :
    (upsertCommandJson c b db).commands.filter (fun r => r.commandId == c) =
      [(db.commands.find? (fun r => r.commandId == c)).elim
        { commandId := c, commandJson := b, invocations := none, complete := none }
        (fun r => { r with commandJson := b })] :=
  filter_upsert_conflict (fun r : CommandRow => r.commandId) c (fun r => r.commandId == c)
    (fun r => { r with commandJson := b }) { commandId := c, commandJson := b, invocations := none, complete := none }
    (commandKey_iff c) (fun _ => rfl) rfl db.commands hnd

theorem rows_upsertInvocations (db : DB) (c : String) (b : Option Bytes)
    (hnd : (db.commands.map (fun r => r.commandId)).Nodup) :
    (upsertInvocations c b db).commands.filter (fun r => r.commandId == c) =
      [(db.commands.find? (fun r => r.commandId == c)).elim
        { commandId := c, commandJson := none, invocations := b, complete := none }
        (fun r => { r with invocations := b })] :=
  filter_upsert_conflict (fun r : CommandRow => r.commandId) c (fun r => r.commandId == c)
    (fun r => { r with invocations := b }) { commandId := c, commandJson := none, invocations := b, complete := none }
    (commandKey_iff c) (fun _ => rfl) rfl db.commands hnd

theorem find_upsertCommandJson (db : DB) (c : String) (b : Option Bytes) :
    (upsertCommandJson c b db).commands.find? (fun r => r.commandId == c) =
      some ((db.commands.find? (fun r => r.commandId == c)).elim
        { commandId := c, commandJson := b, invocations := none, complete := none }
        (fun r => { r with commandJson := b })) :=
  find?_upsert_conflict (fun r : CommandRow => r.commandId == c)
    (fun r => { r with commandJson := b }) { commandId := c, commandJson := b, invocations := none, complete := none }
    (fun _ hr => hr) (by simp) db.commands

theorem find_upsertInvocations (db : DB) (c : String) (b : Option Bytes) :
    (upsertInvocations c b db).commands.find? (fun r => r.commandId == c) =
      some ((db.commands.find? (fun r => r.commandId == c)).elim
        { commandId := c, commandJson := none, invocations := b, complete := none }
        (fun r => { r with invocations := b })) :=
  find?_upsert_conflict (fun r : CommandRow => r.commandId == c)
    (fun r => { r with invocations := b }) { commandId := c, commandJson := none, invocations := b, complete := none }
    (fun _ hr => hr) (by simp) db.commands

theorem otherKey (c id : String) (hne : id ≠ c) (r : CommandRow) (hr : (r.commandId == c) = true) :
    (r.commandId == id) = false := by
  have hc : r.commandId = c := (commandKey_iff c r).1 hr
  simpa [hc] using hne.symm

theorem find_upsertCommandJson_other (db : DB) (c id : String) (b : Option Bytes) (hne : id ≠ c) :
    (upsertCommandJson c b db).commands.find? (fun r => r.commandId == id) =
      db.commands.find? (fun r => r.commandId == id) :=
  find?_upsert_other (fun r : CommandRow => r.commandId == c) (fun r => r.commandId == id)
    (fun r => { r with commandJson := b }) { commandId := c, commandJson := b, invocations := none, complete := none }
    (fun r hr => ⟨otherKey c id hne r hr, otherKey c id hne r hr⟩)
    (by simpa using hne.symm) db.commands

theorem find_upsertInvocations_other (db : DB) (c id : String) (b : Option Bytes) (hne : id ≠ c) :
    (upsertInvocations c b db).commands.find? (fun r => r.commandId == id) =
      db.commands.find? (fun r => r.commandId == id) :=
  find?_upsert_other (fun r : CommandRow => r.commandId == c) (fun r => r.commandId == id)
    (fun r => { r with invocations := b }) { commandId := c, commandJson := none, invocations := b, complete := none }
    (fun r hr => ⟨otherKey c id hne r hr, otherKey c id hne r hr⟩)
    (by simpa using hne.symm) db.commands

theorem nodup_upsertCommandJson (db : DB) (c : String) (b : Option Bytes)
    (hnd : (db.commands.map (fun r => r.commandId)).Nodup) :
    ((upsertCommandJson c b db).commands.map (fun r => r.commandId)).Nodup :=
  nodup_upsert (fun r : CommandRow => r.commandId) c (fun r => r.commandId == c)
    (fun r => { r with commandJson := b }) { commandId := c, commandJson := b, invocations := none, complete := none }
    (commandKey_iff c) (fun _ => rfl) rfl db.commands hnd

theorem nodup_upsertInvocations (db : DB) (c : String) (b : Option Bytes)
    (hnd : (db.commands.map (fun r => r.commandId)).Nodup) :
    ((upsertInvocations c b db).commands.map (fun r => r.commandId)).Nodup :=
  nodup_upsert (fun r : CommandRow => r.commandId) c (fun r => r.commandId == c)
    (fun r => { r with invocations := b }) { commandId := c, commandJson := none, invocations := b, complete := none }
    (commandKey_iff c) (fun _ => rfl) rfl db.commands hnd

theorem find_commandId (rows : List CommandRow) (c : String) (r : CommandRow)
    (hr : rows.find? (fun r => r.commandId == c) = some r) : r.commandId = c :=
  (commandKey_iff c r).1
    (@List.find?_some _ (fun r : CommandRow => r.commandId == c) _ _ hr)

theorem lastCommandId_of_all {Cmd Inv : Type} (json : Json Cmd Inv) (L : List Inv) (c : String)
    (hne : L ≠ []) (hid : ∀ inv ∈ L, json.InvCommandId inv = c) :
    lastCommandId json L = c := by
  rw [lastCommandId_of_getLast? json L (L.getLast hne) (List.getLast?_eq_getLast L hne)]
  exact hid _ (List.getLast_mem hne)

theorem rows_after_both (db : DB) (c : String) (bm bl : Option Bytes)
    (hnd : (db.commands.map (fun r => r.commandId)).Nodup) :
    (upsertInvocations c bl (upsertCommandJson c bm db)).commands.filter
        (fun r => r.commandId == c) =
      [{ commandId := c, commandJson := bm, invocations := bl,
         complete := (db.commands.find? (fun r => r.commandId == c)).bind (fun r => r.complete) }] ∧
    (upsertCommandJson c bm (upsertInvocations c bl db)).commands.filter
        (fun r => r.commandId == c) =
      [{ commandId := c, commandJson := bm, invocations := bl,
         complete := (db.commands.find? (fun r => r.commandId == c)).bind (fun r => r.complete) }] := by
  constructor
  · rw [rows_upsertInvocations _ c bl (nodup_upsertCommandJson db c bm hnd),
      find_upsertCommandJson]
    cases hf : db.commands.find? (fun r => r.commandId == c) with
    | none => rfl
    | some r =>
      have hc := find_commandId db.commands c r hf
      simp [Option.elim, hc]
  · rw [rows_upsertCommandJson _ c bm (nodup_upsertInvocations db c bl hnd),
      find_upsertInvocations]
    cases hf : db.commands.find? (fun r => r.commandId == c) with
    | none => rfl
    | some r =>
      have hc := find_commandId db.commands c r hf
      simp [Option.elim, hc]

/-! ## Theorems on `PutCommand` -/

/-- C2 (column independence): on a store that respects its primary keys, for a metadata
document `M` with id `c` that marshals to `bm` and a non-empty invocation
list `L` whose entries all carry the id `c` and that marshals to `bl`, the
accepted calls `PutCommand(M, none)` then `PutCommand(none, L)`, and likewise
in the opposite order, return no error and leave exactly one row for `c`,
holding `bm` in the metadata column and `bl` in the invocation-list column;
in any store the metadata write changes only the metadata column of an
existing row of `c` and the invocation-list write only its invocation-list
column. -/
theorem column_independence {Cmd Inv : Type} (json : Json Cmd Inv) (h : History) (M : Cmd)
    (L : List Inv) (bm bl : Bytes) (a : GoError) (hpk : PrimaryKeys h.db)
    (hm : json.marshalCommand M = .ok bm) (hl : json.marshalInvocations L = .ok bl)
    (hne : L ≠ []) (hid : ∀ inv ∈ L, json.InvCommandId inv = json.CommandId M) :
    (PutCommand json h (some M) [] none a).2 = none ∧
      (PutCommand json (PutCommand json h (some M) [] none a).1 none L a none).2 = none ∧
      (PutCommand json (PutCommand json h (some M) [] none a).1 none L a none).1.db.commands.filter
          (fun r => r.commandId == json.CommandId M) =
        [{ commandId := json.CommandId M, commandJson := some bm, invocations := some bl,
           complete := (lookupCommand h (json.CommandId M)).bind (fun r => r.complete) }] ∧
      (PutCommand json h none L a none).2 = none ∧
      (PutCommand json (PutCommand json h none L a none).1 (some M) [] none a).2 = none ∧
      (PutCommand json (PutCommand json h none L a none).1 (some M) [] none a).1.db.commands.filter
          (fun r => r.commandId == json.CommandId M) =
        [{ commandId := json.CommandId M, commandJson := some bm, invocations := some bl,
           complete := (lookupCommand h (json.CommandId M)).bind (fun r => r.complete) }] ∧
      (∀ (h0 : History) (r : CommandRow), lookupCommand h0 (json.CommandId M) = some r →
        lookupCommand (PutCommand json h0 (some M) [] none a).1 (json.CommandId M) =
          some { r with commandJson := some bm }) ∧
      (∀ (h0 : History) (r : CommandRow), lookupCommand h0 (json.CommandId M) = some r →
        lookupCommand (PutCommand json h0 none L a none).1 (json.CommandId M) =
          some { r with invocations := some bl }) := by
  have hlast := lastCommandId_of_all json L (json.CommandId M) hne hid
  have hopt : (json.marshalInvocations L).toOption = some bl := by
    rw [hl]
    rfl
  have hboth := rows_after_both h.db (json.CommandId M) (some bm) (some bl) hpk.1
  refine ⟨?_, ?_, ?_, ?_, ?_, ?_, ?_, ?_⟩
  · rw [putCommand_metadata_only json h M bm a hm]
  · rw [putCommand_invocations_only json _ L a hne]
  · rw [putCommand_metadata_only json h M bm a hm, putCommand_invocations_only json _ L a hne,
      hlast, hopt]
    exact hboth.1
  · rw [putCommand_invocations_only json _ L a hne]
  · rw [putCommand_metadata_only json _ M bm a hm]
  · rw [putCommand_invocations_only json _ L a hne, putCommand_metadata_only json _ M bm a hm,
      hlast, hopt]
    exact hboth.2
  · intro h0 r hr
    rw [putCommand_metadata_only json h0 M bm a hm]
    simp only [lookupCommand] at hr ⊢
    rw [find_upsertCommandJson, hr]
    rfl
  · intro h0 r hr
    rw [putCommand_invocations_only json h0 L a hne, hlast, hopt]
    simp only [lookupCommand] at hr ⊢
    rw [find_upsertInvocations, hr]
    rfl

/-- C2 on a store that already holds another command: "cmd-1" gets its metadata and then
its two invocations, and its row holds both. -/
theorem column_independence_witness :
    (PutCommand exampleJson
        (PutCommand exampleJson
          { db := { commands := [⟨"cmd-0", some "Ccmd-0;old", none, none⟩], invocations := [] } }
          (some ⟨"cmd-1", "run", true⟩) [] none none).1
        none [⟨"cmd-1", "i-1", true⟩, ⟨"cmd-1", "i-2", true⟩] none none).1.db.commands.filter
      (fun r => r.commandId == "cmd-1") =
    [⟨"cmd-1", some "Ccmd-1;run", some "Lcmd-1;i-1;cmd-1;i-2;", none⟩] :=
  (column_independence exampleJson
    { db := { commands := [⟨"cmd-0", some "Ccmd-0;old", none, none⟩], invocations := [] } }
    ⟨"cmd-1", "run", true⟩ [⟨"cmd-1", "i-1", true⟩, ⟨"cmd-1", "i-2", true⟩]
    "Ccmd-1;run" "Lcmd-1;i-1;cmd-1;i-2;" none (by decide) (by rfl) (by rfl) (by decide)
    (by decide)).2.2.1

/-- C10 (an invocation list with several command ids): on a store that respects its
primary keys, for a non-empty list `L` that marshals to `bl`, the accepted
call `PutCommand(none, L)` returns no error and leaves exactly one row keyed by
the command id of the last entry of `L`, with `bl` in its invocation-list
column and its other columns as before; the rows of every other id, among
them the other ids occurring in `L`, and the outputs table are unchanged. -/
theorem invocations_filed_under_last {Cmd Inv : Type} (json : Json Cmd Inv) (h : History)
    (L : List Inv) (last : Inv) (bl : Bytes) (a1 : GoError) (hpk : PrimaryKeys h.db)
    (hlast : L.getLast? = some last) (hl : json.marshalInvocations L = .ok bl) :
    (PutCommand json h none L a1 none).2 = none ∧
      (PutCommand json h none L a1 none).1.db.commands.filter
          (fun r => r.commandId == json.InvCommandId last) =
        [{ commandId := json.InvCommandId last,
           commandJson := (lookupCommand h (json.InvCommandId last)).bind (fun r => r.commandJson),
           invocations := some bl,
           complete := (lookupCommand h (json.InvCommandId last)).bind (fun r => r.complete) }] ∧
      (PutCommand json h none L a1 none).1.db.commands.filter
          (fun r => !(r.commandId == json.InvCommandId last)) =
        h.db.commands.filter (fun r => !(r.commandId == json.InvCommandId last)) ∧
      (∀ id : String, id ≠ json.InvCommandId last →
        lookupCommand (PutCommand json h none L a1 none).1 id = lookupCommand h id) ∧
      (PutCommand json h none L a1 none).1.db.invocations = h.db.invocations := by
  have hne : L ≠ [] := by
    intro e
    rw [e] at hlast
    simp at hlast
  have hopt : (json.marshalInvocations L).toOption = some bl := by
    rw [hl]
    rfl
  rw [putCommand_invocations_only json h L a1 hne, lastCommandId_of_getLast? json L last hlast,
    hopt]
  refine ⟨rfl, ?_, ?_, ?_, rfl⟩
  · rw [rows_upsertInvocations h.db _ (some bl) hpk.1]
    simp only [lookupCommand]
    cases hf : h.db.commands.find? (fun r => r.commandId == json.InvCommandId last) with
    | none => rfl
    | some r =>
      have hc := find_commandId h.db.commands _ r hf
      simp [Option.elim, hc]
  · exact filter_upsert_other (fun r : CommandRow => r.commandId == json.InvCommandId last)
      (fun r => !(r.commandId == json.InvCommandId last))
      (fun r => { r with invocations := some bl })
      { commandId := json.InvCommandId last, commandJson := none, invocations := some bl,
        complete := none }
      (fun r hr => by simp [(commandKey_iff _ r).1 hr]) (by simp) h.db.commands
  · intro id hid
    exact find_upsertInvocations_other h.db _ id (some bl) hid

/-- C10 on a list that names "cmd-1" and then "cmd-2": the whole list is filed under
"cmd-2", and the row of "cmd-1" keeps its own list. -/
theorem invocations_filed_under_last_witness :
    (PutCommand exampleJson
        { db := { commands := [⟨"cmd-1", some "Ccmd-1;run", some "Lcmd-1;i-0;", none⟩],
                  invocations := [] } }
        none [⟨"cmd-1", "i-1", true⟩, ⟨"cmd-2", "i-2", true⟩] none none).1.db.commands =
    [⟨"cmd-1", some "Ccmd-1;run", some "Lcmd-1;i-0;", none⟩,
      ⟨"cmd-2", none, some "Lcmd-1;i-1;cmd-2;i-2;", none⟩] ∧
    (PutCommand exampleJson
        { db := { commands := [⟨"cmd-1", some "Ccmd-1;run", some "Lcmd-1;i-0;", none⟩],
                  invocations := [] } }
        none [⟨"cmd-1", "i-1", true⟩, ⟨"cmd-2", "i-2", true⟩] none none).1.db.commands.filter
      (fun r => r.commandId == "cmd-2") =
    [⟨"cmd-2", none, some "Lcmd-1;i-1;cmd-2;i-2;", none⟩] :=
  ⟨by decide, (invocations_filed_under_last exampleJson
    { db := { commands := [⟨"cmd-1", some "Ccmd-1;run", some "Lcmd-1;i-0;", none⟩],
              invocations := [] } }
    [⟨"cmd-1", "i-1", true⟩, ⟨"cmd-2", "i-2", true⟩] ⟨"cmd-2", "i-2", true⟩
    "Lcmd-1;i-1;cmd-2;i-2;" none (by decide) (by rfl) (by rfl)).2.1⟩

/-! ## The two blocks of `PutCommand`, case by case -/

theorem putCommandJson_cases {Cmd Inv : Type} (json : Json Cmd Inv) (h : History)
    (command : Option Cmd) (a1 : GoError) :
    (putCommandJson json h command a1 = (h, none) ∧ command = none) ∨
      (∃ M err, command = some M ∧ json.marshalCommand M = .error err ∧
        putCommandJson json h command a1 = (h, some err)) ∨
      (∃ M bm err, command = some M ∧ json.marshalCommand M = .ok bm ∧ a1 = some err ∧
        putCommandJson json h command a1 = (h, some err)) ∨
      (∃ M bm, command = some M ∧ json.marshalCommand M = .ok bm ∧ a1 = none ∧
        putCommandJson json h command a1 =
          ({ db := upsertCommandJson (json.CommandId M) (some bm) h.db }, none)) := by
  cases command with
  | none => exact Or.inl ⟨rfl, rfl⟩
  | some M =>
    cases hm : json.marshalCommand M with
    | error err =>
      refine Or.inr (Or.inl ⟨M, err, rfl, hm, ?_⟩)
      simp [putCommandJson, hm]
    | ok bm =>
      cases a1 with
      | some err =>
        refine Or.inr (Or.inr (Or.inl ⟨M, bm, err, rfl, hm, rfl, ?_⟩))
        simp [putCommandJson, hm, History.Exec]
      | none =>
        refine Or.inr (Or.inr (Or.inr ⟨M, bm, rfl, hm, rfl, ?_⟩))
        simp [putCommandJson, hm, History.Exec]

theorem putInvocations_cases {Cmd Inv : Type} (json : Json Cmd Inv) (h : History)
    (invocations : List Inv) (a2 : GoError) :
    (putInvocations json h invocations a2 = (h, none) ∧ invocations = []) ∨
      (∃ err, invocations ≠ [] ∧ a2 = some err ∧
        putInvocations json h invocations a2 = (h, some err)) ∨
      (invocations ≠ [] ∧ a2 = none ∧
        putInvocations json h invocations a2 =
          ({ db := upsertInvocations (lastCommandId json invocations)
              (json.marshalInvocations invocations).toOption h.db }, none)) := by
  cases invocations with
  | nil => exact Or.inl ⟨rfl, rfl⟩
  | cons inv rest =>
    cases a2 with
    | some err =>
      refine Or.inr (Or.inl ⟨err, by simp, rfl, ?_⟩)
      simp [putInvocations, History.Exec]
    | none =>
      refine Or.inr (Or.inr ⟨by simp, rfl, ?_⟩)
      simp [putInvocations, History.Exec]

theorem putCommand_of_first_error {Cmd Inv : Type} (json : Json Cmd Inv) (h h1 : History)
    (command : Option Cmd) (invocations : List Inv) (a1 a2 : GoError) (err : String)
    (h1eq : putCommandJson json h command a1 = (h1, some err)) :
    PutCommand json h command invocations a1 a2 = (h1, some err) := by
  simp [PutCommand, h1eq]

theorem putCommand_of_first_ok {Cmd Inv : Type} (json : Json Cmd Inv) (h h1 : History)
    (command : Option Cmd) (invocations : List Inv) (a1 a2 : GoError)
    (h1eq : putCommandJson json h command a1 = (h1, none)) :
    PutCommand json h command invocations a1 a2 = putInvocations json h1 invocations a2 := by
  simp [PutCommand, h1eq]

theorem invocationColumn_upsertCommandJson (db : DB) (c id : String) (b : Option Bytes) :
    ((upsertCommandJson c b db).commands.find? (fun r => r.commandId == id)).bind
        (fun r => r.invocations) =
      (db.commands.find? (fun r => r.commandId == id)).bind (fun r => r.invocations) := by
  by_cases hid : id = c
  · subst hid
    rw [find_upsertCommandJson]
    cases db.commands.find? (fun r => r.commandId == id) <;> rfl
  · rw [find_upsertCommandJson_other db c id b hid]

theorem failed_put_state {Cmd Inv : Type} (json : Json Cmd Inv) (h : History)
    (command : Option Cmd) (invocations : List Inv) (a1 a2 : GoError) (e : String)
    (herr : (PutCommand json h command invocations a1 a2).2 = some e) :
    ((command = none ∨ (∃ M err, command = some M ∧ json.marshalCommand M = .error err) ∨
        a1 ≠ none) ∧ (PutCommand json h command invocations a1 a2).1 = h) ∨
      (∃ M bm, command = some M ∧ json.marshalCommand M = .ok bm ∧ a1 = none ∧ a2 = some e ∧
        invocations ≠ [] ∧
        (PutCommand json h command invocations a1 a2).1 =
          { db := upsertCommandJson (json.CommandId M) (some bm) h.db }) := by
  rcases putCommandJson_cases json h command a1 with
    ⟨h1, hc⟩ | ⟨M, err, hc, hm, h1⟩ | ⟨M, bm, err, hc, hm, ha, h1⟩ | ⟨M, bm, hc, hm, ha, h1⟩
  · rw [putCommand_of_first_ok json h h command invocations a1 a2 h1] at herr ⊢
    rcases putInvocations_cases json h invocations a2 with ⟨h2, -⟩ | ⟨err, -, -, h2⟩ | ⟨-, -, h2⟩
    · rw [h2] at herr
      exact absurd herr (by simp)
    · rw [h2]
      exact Or.inl ⟨Or.inl hc, rfl⟩
    · rw [h2] at herr
      exact absurd herr (by simp)
  · rw [putCommand_of_first_error json h h command invocations a1 a2 err h1]
    exact Or.inl ⟨Or.inr (Or.inl ⟨M, err, hc, hm⟩), rfl⟩
  · rw [putCommand_of_first_error json h h command invocations a1 a2 err h1]
    exact Or.inl ⟨Or.inr (Or.inr (by simp [ha])), rfl⟩
  · rw [putCommand_of_first_ok json h _ command invocations a1 a2 h1] at herr ⊢
    rcases putInvocations_cases json { db := upsertCommandJson (json.CommandId M) (some bm) h.db }
      invocations a2 with ⟨h2, -⟩ | ⟨err, hne, ha2, h2⟩ | ⟨-, -, h2⟩
    · rw [h2] at herr
      exact absurd herr (by simp)
    · rw [h2] at herr ⊢
      have he : err = e := by simpa using herr
      exact Or.inr ⟨M, bm, hc, hm, ha, by rw [ha2, he], hne, rfl⟩
    · rw [h2] at herr
      exact absurd herr (by simp)

/-- C4, as the code has it (a failed put): a `PutCommand` call that returns an error leaves
the invocation-list column of every row and the outputs table as they were.
The whole store is unchanged when the metadata is absent, cannot be marshalled
or its write is rejected. When the metadata write was accepted, the error is
the rejection of the invocation-list write, and the metadata write stays in
the store: the store is the one that `PutCommand(metadata, none)` leaves. -/
theorem failed_put_effect {Cmd Inv : Type} (json : Json Cmd Inv) (h : History)
    (command : Option Cmd) (invocations : List Inv) (a1 a2 : GoError) (e : String)
    (herr : (PutCommand json h command invocations a1 a2).2 = some e) :
    ((command = none ∨ (∃ M err, command = some M ∧ json.marshalCommand M = .error err) ∨
        a1 ≠ none) → (PutCommand json h command invocations a1 a2).1 = h) ∧
      (∀ (M : Cmd) (bm : Bytes), command = some M → json.marshalCommand M = .ok bm → a1 = none →
        a2 = some e ∧ invocations ≠ [] ∧
        (PutCommand json h command invocations a1 a2).1 =
          (PutCommand json h (some M) [] none none).1) ∧
      (∀ id : String,
        (lookupCommand (PutCommand json h command invocations a1 a2).1 id).bind
            (fun r => r.invocations) =
          (lookupCommand h id).bind (fun r => r.invocations)) ∧
      (PutCommand json h command invocations a1 a2).1.db.invocations = h.db.invocations := by
  rcases failed_put_state json h command invocations a1 a2 e herr with
    ⟨hcase, hst⟩ | ⟨M, bm, hc, hm, ha1, ha2, hne, hst⟩
  · rw [hst]
    refine ⟨fun _ => rfl, ?_, fun _ => rfl, rfl⟩
    intro M bm hc hm ha1
    exfalso
    rcases hcase with hcn | ⟨M4, err4, hc4, hm4⟩ | hcn
    · rw [hc] at hcn
      exact absurd hcn (by simp)
    · rw [hc] at hc4
      have hM : M = M4 := by simpa using hc4
      rw [hM, hm4] at hm
      exact absurd hm (by simp)
    · exact hcn ha1
  · rw [hst]
    refine ⟨?_, ?_, ?_, rfl⟩
    · intro hcase
      exfalso
      rcases hcase with hcn | ⟨M4, err4, hc4, hm4⟩ | hcn
      · rw [hc] at hcn
        exact absurd hcn (by simp)
      · rw [hc] at hc4
        have hM : M = M4 := by simpa using hc4
        rw [hM, hm4] at hm
        exact absurd hm (by simp)
      · exact hcn ha1
    · intro M2 bm2 hc2 hm2 _
      rw [hc] at hc2
      have hM : M = M2 := by simpa using hc2
      subst hM
      rw [hm] at hm2
      have hb : bm = bm2 := by simpa using hm2
      subst hb
      rw [putCommand_metadata_only json h M bm none hm]
      exact ⟨ha2, hne, rfl⟩
    · intro id
      exact invocationColumn_upsertCommandJson h.db _ id _

/-- C4 fails as stated: on a store whose row of "cmd-1" holds the metadata "Ccmd-1;old",
`PutCommand` with new metadata and one invocation, where the engine accepts the
first statement and rejects the second, returns the error of the engine and
has replaced the metadata column. -/
theorem failed_put_changes_metadata :
    (PutCommand exampleJson
        { db := { commands := [⟨"cmd-1", some "Ccmd-1;old", none, none⟩], invocations := [] } }
        (some ⟨"cmd-1", "new", true⟩) [⟨"cmd-1", "i-1", true⟩] none
        (some "database or disk is full")).2 = some "database or disk is full" ∧
      (PutCommand exampleJson
        { db := { commands := [⟨"cmd-1", some "Ccmd-1;old", none, none⟩], invocations := [] } }
        (some ⟨"cmd-1", "new", true⟩) [⟨"cmd-1", "i-1", true⟩] none
        (some "database or disk is full")).1 =
        { db := { commands := [⟨"cmd-1", some "Ccmd-1;new", none, none⟩], invocations := [] } } ∧
      (PutCommand exampleJson
        { db := { commands := [⟨"cmd-1", some "Ccmd-1;old", none, none⟩], invocations := [] } }
        (some ⟨"cmd-1", "new", true⟩) [⟨"cmd-1", "i-1", true⟩] none
        (some "database or disk is full")).1 ≠
        { db := { commands := [⟨"cmd-1", some "Ccmd-1;old", none, none⟩], invocations := [] } } := by
  decide

/-- C4 as the code has it, on the same call: the store after the failed call is the one a
metadata-only put leaves. -/
theorem failed_put_effect_witness :
    (PutCommand exampleJson
        { db := { commands := [⟨"cmd-1", some "Ccmd-1;old", none, none⟩], invocations := [] } }
        (some ⟨"cmd-1", "new", true⟩) [⟨"cmd-1", "i-1", true⟩] none
        (some "database or disk is full")).1 =
      (PutCommand exampleJson
        { db := { commands := [⟨"cmd-1", some "Ccmd-1;old", none, none⟩], invocations := [] } }
        (some ⟨"cmd-1", "new", true⟩) [] none none).1 :=
  ((failed_put_effect exampleJson
    { db := { commands := [⟨"cmd-1", some "Ccmd-1;old", none, none⟩], invocations := [] } }
    (some ⟨"cmd-1", "new", true⟩) [⟨"cmd-1", "i-1", true⟩] none
    (some "database or disk is full") "database or disk is full" (by decide)).2.1
      ⟨"cmd-1", "new", true⟩ "Ccmd-1;new" rfl (by rfl) rfl).2.2

theorem putCommand_marshal_error_dropped {Cmd Inv : Type} (json : Json Cmd Inv) (h : History)
    (L : List Inv) (err : String) (a1 : GoError) (hne : L ≠ [])
    (herr : json.marshalInvocations L = .error err) :
    PutCommand json h none L a1 none =
      ({ db := upsertInvocations (lastCommandId json L) none h.db }, none) := by
  rw [putCommand_invocations_only json h L a1 hne, herr]
  rfl

theorem putCommand_metadata_marshal_error {Cmd Inv : Type} (json : Json Cmd Inv) (h : History)
    (M : Cmd) (L : List Inv) (err : String) (a1 a2 : GoError)
    (herr : json.marshalCommand M = .error err) :
    PutCommand json h (some M) L a1 a2 = (h, some err) := by
  simp [PutCommand, putCommandJson, herr]

/-- C5 fails on the code for the invocation list: the list holds an invocation whose time
cannot be marshalled; `PutCommand(none, list)` discards the error of
`json.Marshal`, returns no error, and has written `NULL` over the invocation
list that the row of "cmd-1" held. -/
theorem invocation_marshal_error_swallowed :
    exampleJson.marshalInvocations [⟨"cmd-1", "i-1", false⟩] =
        .error "Time.MarshalJSON: year outside of range [0,9999]" ∧
      PutCommand exampleJson
        { db := { commands := [⟨"cmd-1", some "Ccmd-1;run", some "Lcmd-1;i-0;", none⟩],
                  invocations := [] } }
        none [⟨"cmd-1", "i-1", false⟩] none none =
        ({ db := { commands := [⟨"cmd-1", some "Ccmd-1;run", none, none⟩], invocations := [] } },
          none) :=
  ⟨by rfl, by decide⟩

theorem jsonUnmarshal_null {α : Type} (decode : Bytes → Except String α) :
    jsonUnmarshal decode (scanBytes none) = .error "unexpected end of JSON input" := by
  simp [jsonUnmarshal, scanBytes]

theorem commandsLoop_null {Cmd Inv : Type} (json : Json Cmd Inv) (rows : List CommandRow)
    (acc : List (HistoricalCommand Cmd Inv))
    (hnull : ∃ row ∈ rows, row.commandJson = none ∨ row.invocations = none) :
    ∃ err, commandsLoop json rows acc = .error err := by
  induction rows generalizing acc with
  | nil =>
    obtain ⟨row, hrow, -⟩ := hnull
    simp at hrow
  | cons row rest ih =>
    cases h1 : jsonUnmarshal json.decodeCommand (scanBytes row.commandJson) with
    | error err => exact ⟨err, by simp [commandsLoop, h1]⟩
    | ok command =>
      cases h2 : jsonUnmarshal json.decodeInvocations (scanBytes row.invocations) with
      | error err => exact ⟨err, by simp [commandsLoop, h1, h2]⟩
      | ok invocations =>
        have hrest : ∃ row ∈ rest, row.commandJson = none ∨ row.invocations = none := by
          obtain ⟨bad, hbad, hcol⟩ := hnull
          rcases List.mem_cons.1 hbad with hb | hb
          · exfalso
            subst hb
            rcases hcol with hcol | hcol
            · rw [hcol, jsonUnmarshal_null] at h1
              exact absurd h1 (by simp)
            · rw [hcol, jsonUnmarshal_null] at h2
              exact absurd h2 (by simp)
          · exact ⟨bad, hb, hcol⟩
        obtain ⟨err, herr⟩ :=
          ih (acc ++ [{ Command := command, Invocations := invocations }]) hrest
        exact ⟨err, by simp [commandsLoop, h1, h2, herr]⟩

theorem commands_null_column {Cmd Inv : Type} (json : Json Cmd Inv) (h : History)
    (hnull : ∃ row ∈ h.db.commands, row.commandJson = none ∨ row.invocations = none) :
    ∃ err, Commands json h .served = .error err := by
  obtain ⟨err, herr⟩ := commandsLoop_null json h.db.commands [] hnull
  exact ⟨err, by simp [Commands, delivered, herr]⟩

/-- C3 fails on the code: after the single accepted call `PutCommand(M, none)` on the empty
store the row of "cmd-1" has `NULL` in its invocation-list column, and
`Commands`, served by the engine, returns the error of `json.Unmarshal` on
empty input in place of an entry with an empty invocation list. -/
theorem commands_fails_after_metadata_only :
    PutCommand exampleJson emptyStore (some ⟨"cmd-1", "run", true⟩) [] none none =
        ({ db := { commands := [⟨"cmd-1", some "Ccmd-1;run", none, none⟩], invocations := [] } },
          none) ∧
      Commands exampleJson
        { db := { commands := [⟨"cmd-1", some "Ccmd-1;run", none, none⟩], invocations := [] } }
        .served = .error "unexpected end of JSON input" :=
  ⟨by decide, by rfl⟩

/-! ## The primary key of `commands` along a run -/

theorem mem_commandIds_upsertCommandJson (db : DB) (c : String) (b : Option Bytes) (x : String) :
    x ∈ (upsertCommandJson c b db).commands.map (fun r => r.commandId) ↔
      x = c ∨ x ∈ db.commands.map (fun r => r.commandId) :=
  mem_map_upsert (fun r : CommandRow => r.commandId) c (fun r => r.commandId == c)
    (fun r => { r with commandJson := b })
    { commandId := c, commandJson := b, invocations := none, complete := none }
    (commandKey_iff c) (fun _ => rfl) rfl db.commands x

theorem mem_commandIds_upsertInvocations (db : DB) (c : String) (b : Option Bytes) (x : String) :
    x ∈ (upsertInvocations c b db).commands.map (fun r => r.commandId) ↔
      x = c ∨ x ∈ db.commands.map (fun r => r.commandId) :=
  mem_map_upsert (fun r : CommandRow => r.commandId) c (fun r => r.commandId == c)
    (fun r => { r with invocations := b })
    { commandId := c, commandJson := none, invocations := b, complete := none }
    (commandKey_iff c) (fun _ => rfl) rfl db.commands x

theorem putCommandJson_preserves {Cmd Inv : Type} (json : Json Cmd Inv) (P : History → Prop)
    (hJ : ∀ (h : History) (c : String) (b : Option Bytes), P h →
      P { db := upsertCommandJson c b h.db })
    (h : History) (command : Option Cmd) (a1 : GoError) (hP : P h) :
    P (putCommandJson json h command a1).1 := by
  rcases putCommandJson_cases json h command a1 with
    ⟨h1, -⟩ | ⟨M, err, -, -, h1⟩ | ⟨M, bm, err, -, -, -, h1⟩ | ⟨M, bm, -, -, -, h1⟩
  · rw [h1]
    exact hP
  · rw [h1]
    exact hP
  · rw [h1]
    exact hP
  · rw [h1]
    exact hJ h _ _ hP

theorem putInvocations_preserves {Cmd Inv : Type} (json : Json Cmd Inv) (P : History → Prop)
    (hI : ∀ (h : History) (c : String) (b : Option Bytes), P h →
      P { db := upsertInvocations c b h.db })
    (h : History) (invocations : List Inv) (a2 : GoError) (hP : P h) :
    P (putInvocations json h invocations a2).1 := by
  rcases putInvocations_cases json h invocations a2 with ⟨h2, -⟩ | ⟨err, -, -, h2⟩ | ⟨-, -, h2⟩
  · rw [h2]
    exact hP
  · rw [h2]
    exact hP
  · rw [h2]
    exact hI h _ _ hP

theorem putCommand_state {Cmd Inv : Type} (json : Json Cmd Inv) (h : History)
    (command : Option Cmd) (invocations : List Inv) (a1 a2 : GoError) :
    (PutCommand json h command invocations a1 a2).1 = (putCommandJson json h command a1).1 ∨
      (PutCommand json h command invocations a1 a2).1 =
        (putInvocations json (putCommandJson json h command a1).1 invocations a2).1 := by
  cases hfirst : putCommandJson json h command a1 with
  | mk h1 e1 =>
    cases e1 with
    | some err =>
      left
      rw [putCommand_of_first_error json h h1 command invocations a1 a2 err hfirst]
    | none =>
      right
      rw [putCommand_of_first_ok json h h1 command invocations a1 a2 hfirst]

theorem putCommand_preserves {Cmd Inv : Type} (json : Json Cmd Inv) (P : History → Prop)
    (hJ : ∀ (h : History) (c : String) (b : Option Bytes), P h →
      P { db := upsertCommandJson c b h.db })
    (hI : ∀ (h : History) (c : String) (b : Option Bytes), P h →
      P { db := upsertInvocations c b h.db })
    (h : History) (command : Option Cmd) (invocations : List Inv) (a1 a2 : GoError) (hP : P h) :
    P (PutCommand json h command invocations a1 a2).1 := by
  have h1 := putCommandJson_preserves json P hJ h command a1 hP
  rcases putCommand_state json h command invocations a1 a2 with hs | hs
  · rw [hs]
    exact h1
  · rw [hs]
    exact putInvocations_preserves json P hI _ invocations a2 h1

theorem appendPayload_commands (h : History) (msg : SsmMessage) (answer : GoError) :
    (AppendPayload h msg answer).1.db.commands = h.db.commands := by
  cases answer <;> rfl

theorem after_preserves {Cmd Inv : Type} (json : Json Cmd Inv) (P : List CommandRow → Prop)
    (hJ : ∀ (db : DB) (c : String) (b : Option Bytes), P db.commands →
      P (upsertCommandJson c b db).commands)
    (hI : ∀ (db : DB) (c : String) (b : Option Bytes), P db.commands →
      P (upsertInvocations c b db).commands)
    (h : History) (call : Call Cmd Inv) (hP : P h.db.commands) :
    P (Call.after json h call).db.commands := by
  cases call with
  | put command invocations a1 a2 =>
    exact putCommand_preserves json (fun h => P h.db.commands) (fun h c b => hJ h.db c b)
      (fun h c b => hI h.db c b) h command invocations a1 a2 hP
  | append msg answer =>
    show P (AppendPayload h msg answer).1.db.commands
    rw [appendPayload_commands]
    exact hP

theorem run_preserves {Cmd Inv : Type} (json : Json Cmd Inv) (P : List CommandRow → Prop)
    (hJ : ∀ (db : DB) (c : String) (b : Option Bytes), P db.commands →
      P (upsertCommandJson c b db).commands)
    (hI : ∀ (db : DB) (c : String) (b : Option Bytes), P db.commands →
      P (upsertInvocations c b db).commands)
    (calls : List (Call Cmd Inv)) (h : History) (hP : P h.db.commands) :
    P (run json h calls).db.commands := by
  induction calls generalizing h with
  | nil => exact hP
  | cons call rest ih => exact ih (Call.after json h call) (after_preserves json P hJ hI h call hP)

theorem run_nodup {Cmd Inv : Type} (json : Json Cmd Inv) (calls : List (Call Cmd Inv))
    (h : History) (hnd : (commandIds h).Nodup) : (commandIds (run json h calls)).Nodup :=
  run_preserves json (fun rows => (rows.map (fun r : CommandRow => r.commandId)).Nodup)
    (fun db c b hP => nodup_upsertCommandJson db c b hP)
    (fun db c b hP => nodup_upsertInvocations db c b hP) calls h hnd

theorem run_mem {Cmd Inv : Type} (json : Json Cmd Inv) (calls : List (Call Cmd Inv))
    (h : History) (x : String) (hx : x ∈ commandIds h) : x ∈ commandIds (run json h calls) :=
  run_preserves json (fun rows => x ∈ rows.map (fun r : CommandRow => r.commandId))
    (fun db c b hP => (mem_commandIds_upsertCommandJson db c b x).2 (Or.inr hP))
    (fun db c b hP => (mem_commandIds_upsertInvocations db c b x).2 (Or.inr hP)) calls h hx

theorem put_metadata_mem {Cmd Inv : Type} (json : Json Cmd Inv) (h : History) (M : Cmd)
    (bm : Bytes) (invocations : List Inv) (a2 : GoError)
    (hm : json.marshalCommand M = .ok bm) :
    json.CommandId M ∈ commandIds (PutCommand json h (some M) invocations none a2).1 := by
  have hfirst : putCommandJson json h (some M) none =
      ({ db := upsertCommandJson (json.CommandId M) (some bm) h.db }, none) := by
    simp [putCommandJson, hm, History.Exec]
  rw [putCommand_of_first_ok json h _ (some M) invocations none a2 hfirst]
  apply putInvocations_preserves json (fun h => json.CommandId M ∈ commandIds h)
  · intro h0 c b hP
    exact (mem_commandIds_upsertInvocations h0.db c b _).2 (Or.inr hP)
  · exact (mem_commandIds_upsertCommandJson h.db _ _ _).2 (Or.inl rfl)

theorem put_invocations_mem {Cmd Inv : Type} (json : Json Cmd Inv) (h : History)
    (command : Option Cmd) (invocations : List Inv) (last : Inv) (a1 : GoError)
    (hfirst : command = none ∨
      ∃ M bm, command = some M ∧ json.marshalCommand M = .ok bm ∧ a1 = none)
    (hlast : invocations.getLast? = some last) :
    json.InvCommandId last ∈ commandIds (PutCommand json h command invocations a1 none).1 := by
  have hne : invocations ≠ [] := by
    intro e
    rw [e] at hlast
    simp at hlast
  have hsecond : ∀ h1 : History, json.InvCommandId last ∈
      commandIds (putInvocations json h1 invocations none).1 := by
    intro h1
    rcases putInvocations_cases json h1 invocations none with ⟨-, hnil⟩ | ⟨err, -, ha, -⟩ | ⟨-, -, h2⟩
    · exact absurd hnil hne
    · exact absurd ha (by simp)
    · rw [h2, lastCommandId_of_getLast? json invocations last hlast]
      exact (mem_commandIds_upsertInvocations h1.db _ _ _).2 (Or.inl rfl)
  rcases hfirst with hc | ⟨M, bm, hc, hm, ha⟩
  · subst hc
    have h1 : putCommandJson json h (none : Option Cmd) a1 = (h, none) := rfl
    rw [putCommand_of_first_ok json h h none invocations a1 none h1]
    exact hsecond h
  · subst hc ha
    have h1 : putCommandJson json h (some M) none =
        ({ db := upsertCommandJson (json.CommandId M) (some bm) h.db }, none) := by
      simp [putCommandJson, hm, History.Exec]
    rw [putCommand_of_first_ok json h _ (some M) invocations none none h1]
    exact hsecond _

theorem run_mem_of_call {Cmd Inv : Type} (json : Json Cmd Inv) (calls : List (Call Cmd Inv))
    (h : History) (call : Call Cmd Inv) (x : String) (hcall : call ∈ calls)
    (hx : ∀ h0 : History, x ∈ commandIds (Call.after json h0 call)) :
    x ∈ commandIds (run json h calls) := by
  obtain ⟨pre, post, rfl⟩ := List.append_of_mem hcall
  have hsplit : run json h (pre ++ call :: post) =
      run json (Call.after json (run json h pre) call) post := by
    simp [run, List.foldl_append]
  rw [hsplit]
  exact run_mem json post _ x (hx _)

theorem rows_length_of_nodup (rows : List CommandRow) (c : String)
    (hnd : (rows.map (fun r => r.commandId)).Nodup) :
    (rows.filter (fun r => r.commandId == c)).length ≤ 1 ∧
      (c ∈ rows.map (fun r => r.commandId) →
        (rows.filter (fun r => r.commandId == c)).length = 1) := by
  induction rows with
  | nil => simp
  | cons r rs ih =>
    simp only [List.map_cons, List.nodup_cons] at hnd
    by_cases hr : r.commandId = c
    · have hnone : rs.filter (fun r => r.commandId == c) = [] := by
        rw [List.filter_eq_nil_iff]
        intro x hx hxc
        apply hnd.1
        rw [hr, ← (commandKey_iff c x).1 hxc]
        exact List.mem_map_of_mem (fun r : CommandRow => r.commandId) hx
      simp [List.filter_cons, hr, hnone]
    · have hne : ¬ c = r.commandId := fun e => hr e.symm
      simp only [List.filter_cons, beq_iff_eq, hr, if_false, List.map_cons, List.mem_cons, hne,
        false_or]
      exact ih hnd.2

/-- C6 (row uniqueness): in the store reached from the empty store by any sequence of
`PutCommand` and `AppendPayload` calls, whatever the engine answered to each
statement, no two rows of `commands` share a command id, so every id has at
most one row; the id of a metadata document whose write the engine accepted
has exactly one row, and so has the id under which an invocation list was
written with the engine accepting the write. -/
theorem row_uniqueness {Cmd Inv : Type} (json : Json Cmd Inv) (calls : List (Call Cmd Inv)) :
    (commandIds (run json emptyStore calls)).Nodup ∧
      (∀ id : String, ((run json emptyStore calls).db.commands.filter
        (fun r => r.commandId == id)).length ≤ 1) ∧
      (∀ (M : Cmd) (bm : Bytes) (invocations : List Inv) (a2 : GoError),
        Call.put (some M) invocations none a2 ∈ calls → json.marshalCommand M = .ok bm →
        ((run json emptyStore calls).db.commands.filter
          (fun r => r.commandId == json.CommandId M)).length = 1) ∧
      (∀ (command : Option Cmd) (invocations : List Inv) (last : Inv) (a1 : GoError),
        Call.put command invocations a1 none ∈ calls →
        (command = none ∨
          ∃ M bm, command = some M ∧ json.marshalCommand M = .ok bm ∧ a1 = none) →
        invocations.getLast? = some last →
        ((run json emptyStore calls).db.commands.filter
          (fun r => r.commandId == json.InvCommandId last)).length = 1) := by
  have hnd : (commandIds (run json emptyStore calls)).Nodup :=
    run_nodup json calls emptyStore (by simp [commandIds, emptyStore])
  refine ⟨hnd, fun id => (rows_length_of_nodup _ id hnd).1, ?_, ?_⟩
  · intro M bm invocations a2 hcall hm
    apply (rows_length_of_nodup _ _ hnd).2
    exact run_mem_of_call json calls emptyStore _ _ hcall
      (fun h0 => put_metadata_mem json h0 M bm invocations a2 hm)
  · intro command invocations last a1 hcall hfirst hlast
    apply (rows_length_of_nodup _ _ hnd).2
    exact run_mem_of_call json calls emptyStore _ _ hcall
      (fun h0 => put_invocations_mem json h0 command invocations last a1 hfirst hlast)

/-- C6 on a run of four calls, the last of which fails at its second statement: the
empty store gets the metadata of "cmd-1", the invocations of "cmd-1", a chunk of
output, and new metadata with an invocation list that the engine rejects; one
row of "cmd-1" results, and one row in all. -/
theorem row_uniqueness_witness :
    ((run exampleJson emptyStore
        [Call.put (some ⟨"cmd-1", "run", true⟩) [] none none,
          Call.put none [⟨"cmd-1", "i-1", true⟩] none none,
          Call.append (chunkMessage "cmd-1" "i-1" ("out", "")) none,
          Call.put (some ⟨"cmd-1", "again", true⟩) [⟨"cmd-1", "i-2", true⟩] none
            (some "database is locked")]).db.commands.filter
        (fun r => r.commandId == "cmd-1")).length = 1 ∧
      (run exampleJson emptyStore
        [Call.put (some ⟨"cmd-1", "run", true⟩) [] none none,
          Call.put none [⟨"cmd-1", "i-1", true⟩] none none,
          Call.append (chunkMessage "cmd-1" "i-1" ("out", "")) none,
          Call.put (some ⟨"cmd-1", "again", true⟩) [⟨"cmd-1", "i-2", true⟩] none
            (some "database is locked")]).db.commands =
        [⟨"cmd-1", some "Ccmd-1;again", some "Lcmd-1;i-1;", none⟩] :=
  ⟨(row_uniqueness exampleJson
      [Call.put (some ⟨"cmd-1", "run", true⟩) [] none none,
        Call.put none [⟨"cmd-1", "i-1", true⟩] none none,
        Call.append (chunkMessage "cmd-1" "i-1" ("out", "")) none,
        Call.put (some ⟨"cmd-1", "again", true⟩) [⟨"cmd-1", "i-2", true⟩] none
          (some "database is locked")]).2.2.1 ⟨"cmd-1", "run", true⟩ "Ccmd-1;run" [] none
      (List.mem_cons_self _ _) (by rfl), by decide⟩

end gossm
